import Mathlib

/-!
Verification of the GuideDog repository (an accessibility aid: camera capture,
person detection, narration) against its natural-language specification.

The development shallowly embeds the two source files:
  - `src/server/index.js` — result selection (`readBestResult`), person
    filtering/ranking, the position classifier (`leftCenterRight`), the
    gender/activity attribute-extraction cascade, and the per-session
    promise chains (`runDetectExclusive` / `runVIExclusive`);
  - `src/public/app.js` — the speech queue (`speakQueued` / `speakOnce`),
    the auto-repeat announcement dedup machine, the gesture dispatcher
    (long press / single click / double click) and the shared `busy` guard.

Modelling conventions:
  - JavaScript numbers are idealised as rationals (`ℚ`); the claims under
    verification concern order comparisons and products of small decimal
    values, where the idealisation preserves every comparison the code makes.
  - JavaScript strings are modelled as `List Char` (`Str`), with ASCII
    versions of `toLowerCase`/`trim`; the labels and keywords involved are
    ASCII.
  - The deferred (promise) chains are modelled as deterministic runs that
    record an event trace: a `.then` continuation contributes its events
    after the events of the promise it chains onto.
  - Timers (`setTimeout`/`setInterval`) are modelled with explicit
    millisecond deadlines: advancing the clock to time `t` fires every armed
    deadline `≤ t`, earliest first.
-/

/-! ### JS string primitives (ASCII), on `Str := List Char` -/

/-- JavaScript strings, as lists of characters. -/
abbrev Str := List Char

/-- ASCII lower-casing of one character, as `String.prototype.toLowerCase`
acts on ASCII. -/
def lowerChar (c : Char) : Char :=
  if 'A' ≤ c && c ≤ 'Z' then Char.ofNat (c.toNat + 32) else c

/-- `s.toLowerCase()` (ASCII fragment). -/
def toLowerStr (s : Str) : Str := s.map lowerChar

/-- Whitespace recognised by `String.prototype.trim` (ASCII fragment). -/
def isSpaceChar (c : Char) : Bool := c = ' ' || c = '\t' || c = '\n' || c = '\r'

/-- `s.trim()`: strip leading and trailing whitespace. -/
def trimStr (s : Str) : Str :=
  ((s.dropWhile isSpaceChar).reverse.dropWhile isSpaceChar).reverse

/-! ### Server data model (`src/server/index.js`) -/

/-- One detected object of a detection frame.  Numeric fields carry the
image of the server's `toNum(·, 0)` (a missing or non-numeric field is 0);
`classLabel` is `none` when the field is absent. -/
structure DetectedObject where
  classLabel : Option Str
  confidence : ℚ
  x : ℚ
  y : ℚ
  width : ℚ
  height : ℚ

/-- One streamed result frame.  `objects` is `none` when the frame has no
`objects` array (the code reads `r.objects?.length ?? 0`). -/
structure DetectionFrame where
  objects : Option (List DetectedObject)
  source_width : Option ℚ
  source_height : Option ℚ

/-- `r.objects?.length ?? 0`. -/
def objCount (f : DetectionFrame) : Nat :=
  match f.objects with
  | none => 0
  | some os => os.length

/-- The loop body of `readBestResult`: running best frame and best count
(initially `-1`, so the first frame always wins). -/
def readBestResultGo : List DetectionFrame → Option DetectionFrame → Int → Option DetectionFrame
  | [], best, _ => best
  | r :: rest, best, bestN =>
    if (objCount r : Int) > bestN then readBestResultGo rest (some r) (objCount r)
    else readBestResultGo rest best bestN

/-- `readBestResult` of `src/server/index.js` (lines 151–163): consume the
stream of frames, retaining the frame whose `objects.length` strictly exceeds
every count seen so far. -/
def readBestResult (frames : List DetectionFrame) : Option DetectionFrame :=
  readBestResultGo frames none (-1)

/-- Specification-side definition, following the spec's words: the maximum
`objects.length` over the sequence. -/
def maxObjCount (frames : List DetectionFrame) : Nat :=
  frames.foldr (fun f m => max (objCount f) m) 0

/-- Specification-side definition, following the spec's words: the earliest
frame attaining the maximum object count (`none` on the empty sequence). -/
def bestFrameSpec (frames : List DetectionFrame) : Option DetectionFrame :=
  frames.find? (fun f => objCount f == maxObjCount frames)

theorem le_maxObjCount {frames : List DetectionFrame} {g : DetectionFrame}
    (hg : g ∈ frames) : objCount g ≤ maxObjCount frames := by
  induction frames with
  | nil => cases hg
  | cons f rest ih =>
    rcases List.mem_cons.mp hg with h | h
    · subst h
      exact Nat.le_max_left _ _
    · exact Nat.le_trans (ih h) (Nat.le_max_right _ _)

theorem maxObjCount_cons (f : DetectionFrame) (rest : List DetectionFrame) :
    maxObjCount (f :: rest) = max (objCount f) (maxObjCount rest) := rfl

theorem readBestResultGo_some (frames : List DetectionFrame) :
    ∀ b : DetectionFrame,
      readBestResultGo frames (some b) (objCount b) =
        if maxObjCount frames ≤ objCount b then some b
        else frames.find? (fun f => objCount f == maxObjCount frames) := by
  induction frames with
  | nil =>
    intro b
    simp [readBestResultGo, maxObjCount]
  | cons f rest ih =>
    intro b
    rw [readBestResultGo, maxObjCount_cons]
    by_cases h1 : objCount b < objCount f
    · rw [if_pos (by exact_mod_cast h1), ih f]
      have hmax : ¬ max (objCount f) (maxObjCount rest) ≤ objCount b := by omega
      rw [if_neg hmax]
      by_cases h2 : maxObjCount rest ≤ objCount f
      · have hmf : max (objCount f) (maxObjCount rest) = objCount f := by omega
        rw [if_pos h2, hmf, List.find?_cons_of_pos _ (by simp)]
      · have hmf : max (objCount f) (maxObjCount rest) = maxObjCount rest := by omega
        rw [if_neg h2, hmf, List.find?_cons_of_neg _ (by simp; omega)]
    · rw [if_neg (by exact_mod_cast h1), ih b]
      by_cases h2 : maxObjCount rest ≤ objCount b
      · rw [if_pos h2, if_pos (by omega)]
      · have hmf : max (objCount f) (maxObjCount rest) = maxObjCount rest := by omega
        rw [if_neg h2, if_neg (by omega), hmf,
          List.find?_cons_of_neg _ (by simp; omega)]

theorem exists_objCount_eq_max (f : DetectionFrame) (rest : List DetectionFrame) :
    ∃ g ∈ f :: rest, objCount g = maxObjCount (f :: rest) := by
  induction rest generalizing f with
  | nil =>
    exact ⟨f, List.mem_cons_self f [], by simp [maxObjCount_cons, maxObjCount]⟩
  | cons f2 rest2 ih =>
    rcases ih f2 with ⟨g, hg, hcnt⟩
    by_cases hle : maxObjCount (f2 :: rest2) ≤ objCount f
    · refine ⟨f, List.mem_cons_self _ _, ?_⟩
      rw [maxObjCount_cons]
      omega
    · refine ⟨g, List.mem_cons_of_mem f hg, ?_⟩
      rw [maxObjCount_cons f (f2 :: rest2)]
      omega

theorem readBestResult_eq_bestFrameSpec (frames : List DetectionFrame) :
    readBestResult frames = bestFrameSpec frames := by
  cases frames with
  | nil => rfl
  | cons f rest =>
    rw [readBestResult, readBestResultGo, if_pos (by omega),
      readBestResultGo_some rest f, bestFrameSpec, maxObjCount_cons]
    by_cases h2 : maxObjCount rest ≤ objCount f
    · have hmf : max (objCount f) (maxObjCount rest) = objCount f := by omega
      rw [if_pos h2, hmf, List.find?_cons_of_pos _ (by simp)]
    · have hmf : max (objCount f) (maxObjCount rest) = maxObjCount rest := by omega
      rw [if_neg h2, hmf, List.find?_cons_of_neg _ (by simp; omega)]

/-- C1: for every finite (possibly empty) sequence of detection frames,
`readBestResult` returns the frame with the maximum `objects.length`; when
several frames share that maximum, it returns the earliest such frame (a
later equal-count frame never replaces the retained one, because only a
strictly greater count replaces); and it returns `null` exactly when the
sequence is empty.  Stated as: the selector coincides with the
specification-side "earliest frame of maximum count" function, is `none`
exactly on the empty stream, and any returned frame has maximal count and is
the first frame of its count. -/
theorem c1_result_selector (frames : List DetectionFrame) :
    readBestResult frames = bestFrameSpec frames
    ∧ (readBestResult frames = none ↔ frames = [])
    ∧ (∀ f, readBestResult frames = some f →
        (∀ g ∈ frames, objCount g ≤ objCount f)
        ∧ frames.find? (fun g => objCount g == objCount f) = some f) := by
  refine ⟨readBestResult_eq_bestFrameSpec frames, ?_, ?_⟩
  · rw [readBestResult_eq_bestFrameSpec frames, bestFrameSpec]
    constructor
    · intro h
      cases frames with
      | nil => rfl
      | cons f rest =>
        exfalso
        rcases exists_objCount_eq_max f rest with ⟨g, hg, hcnt⟩
        exact List.find?_eq_none.mp h g hg (by simp [hcnt])
    · intro h
      subst h
      rfl
  · intro f hf
    rw [readBestResult_eq_bestFrameSpec frames, bestFrameSpec] at hf
    have hp := List.find?_some hf
    have hcnt : objCount f = maxObjCount frames := by simpa using hp
    constructor
    · intro g hg
      rw [hcnt]
      exact le_maxObjCount hg
    · have : (fun g => objCount g == objCount f)
          = (fun g => objCount g == maxObjCount frames) := by
        funext g
        rw [hcnt]
      rw [this]
      exact hf

/-! ### Position classifier (`leftCenterRight`, `src/server/index.js` lines 132–144) -/

/-- `leftCenterRight(obj, sourceWidth)`: `W = toNum(sourceWidth, 0)` (so a
missing width reads as 0), `!W` yields `"center"`; otherwise classify the
fraction `(x + width/2) / W` with the strict thresholds of the source. -/
def leftCenterRight (obj : DetectedObject) (sourceWidth : Option ℚ) : Str :=
  let W := sourceWidth.getD 0
  if W = 0 then "center".data
  else
    let cx := obj.x + obj.width / 2
    let frac := cx / W
    if frac < 0.4 then "left".data
    else if frac > 0.6 then "right".data
    else "center".data

/-- Specification-side definition, following the claim's words: the piecewise
position function with `frac < 0.4 → left`, `frac > 0.6 → right`, otherwise
`center`, and `center` whenever the source width is missing or zero. -/
def positionSpec (x w : ℚ) (sourceWidth : Option ℚ) : Str :=
  match sourceWidth with
  | none => "center".data
  | some W =>
    if W = 0 then "center".data
    else
      let frac := (x + w / 2) / W
      if frac < 0.4 then "left".data
      else if frac > 0.6 then "right".data
      else "center".data

/-- C4: the position classifier is exactly the piecewise function of the
claim: with `frac = (x + width/2) / sourceWidth`, `frac < 0.4` gives left,
`frac > 0.6` gives right, otherwise center; in particular `frac` exactly 0.4
and exactly 0.6 both classify as center; and a missing or zero `sourceWidth`
gives center for every object. -/
theorem c4_position_classifier (obj : DetectedObject) (sourceWidth : Option ℚ) :
    leftCenterRight obj sourceWidth = positionSpec obj.x obj.width sourceWidth
    ∧ leftCenterRight obj none = "center".data
    ∧ leftCenterRight obj (some 0) = "center".data
    ∧ (∀ W : ℚ, W ≠ 0 →
        ((obj.x + obj.width / 2) / W < 0.4 →
          leftCenterRight obj (some W) = "left".data)
        ∧ ((obj.x + obj.width / 2) / W > 0.6 →
          leftCenterRight obj (some W) = "right".data)
        ∧ (0.4 ≤ (obj.x + obj.width / 2) / W → (obj.x + obj.width / 2) / W ≤ 0.6 →
          leftCenterRight obj (some W) = "center".data)
        ∧ ((obj.x + obj.width / 2) / W = 0.4 →
          leftCenterRight obj (some W) = "center".data)
        ∧ ((obj.x + obj.width / 2) / W = 0.6 →
          leftCenterRight obj (some W) = "center".data)) := by
  refine ⟨?_, rfl, by simp [leftCenterRight], ?_⟩
  · cases sourceWidth with
    | none => rfl
    | some W => rfl
  · intro W hW
    refine ⟨?_, ?_, ?_, ?_, ?_⟩
    · intro h
      simp only [leftCenterRight, Option.getD_some, if_neg hW]
      rw [if_pos h]
    · intro h
      simp only [leftCenterRight, Option.getD_some, if_neg hW]
      rw [if_neg (by linarith), if_pos h]
    · intro h1 h2
      simp only [leftCenterRight, Option.getD_some, if_neg hW]
      rw [if_neg (by linarith), if_neg (by linarith)]
    · intro h
      simp only [leftCenterRight, Option.getD_some, if_neg hW]
      rw [h]
      norm_num
    · intro h
      simp only [leftCenterRight, Option.getD_some, if_neg hW]
      rw [h]
      norm_num

/-! ### Person ranker (`/api/infer` detect pass, `src/server/index.js` lines 326–347) -/

/-- `labelLower(v)`: `String(v ?? "").trim().toLowerCase()`. -/
def labelLower (v : Option Str) : Str := toLowerStr (trimStr (v.getD []))

/-- The detect-pass filter predicate:
`labelLower(o.classLabel) === "person" && toNum(o.confidence, 0) >= 0.35`. -/
def keepObj (o : DetectedObject) : Bool :=
  labelLower o.classLabel == "person".data && decide (o.confidence ≥ 0.35)

/-- A ranked person record of the detect response (gender/activity `null`,
confidences 0, in detect mode). -/
structure PersonRecord where
  confidence : ℚ
  x : ℚ
  y : ℚ
  width : ℚ
  height : ℚ
  position : Str
  gender : Option Str
  genderConfidence : ℚ
  activity : Option Str
  activityConfidence : ℚ

/-- The detect-pass `.map` body: a kept object becomes a `PersonRecord`. -/
def toPersonRecord (o : DetectedObject) (sourceWidth : Option ℚ) : PersonRecord where
  confidence := o.confidence
  x := o.x
  y := o.y
  width := o.width
  height := o.height
  position := leftCenterRight o sourceWidth
  gender := none
  genderConfidence := 0
  activity := none
  activityConfidence := 0

/-- `scorePerson(p)`: area times confidence (`src/server/index.js` lines 146–149). -/
def scorePerson (p : PersonRecord) : ℚ :=
  p.width * p.height * p.confidence

/-- The comparator `(a, b) => scorePerson(b) - scorePerson(a)` orders `a`
before `b` when `scorePerson b ≤ scorePerson a`; `Array.prototype.sort` is a
stable sort for that ordering, modelled by the stable `List.mergeSort`. -/
def rankLe (a b : PersonRecord) : Bool :=
  decide (scorePerson b ≤ scorePerson a)

/-- The detect pass over the best frame's objects: filter to confident
persons, map to records, sort by score descending (stable). -/
def detectPeople (objects : List DetectedObject) (sourceWidth : Option ℚ) :
    List PersonRecord :=
  (((objects.filter keepObj).map (fun o => toPersonRecord o sourceWidth))).mergeSort rankLe

/-- The detect-mode response payload. -/
structure DetectPayload where
  source_width : Option ℚ
  source_height : Option ℚ
  people : List PersonRecord

/-- The whole detect pass from the selected best frame (`null` allowed):
`objects = Array.isArray(bestDetect?.objects) ? bestDetect.objects : []`,
`source_width = bestDetect?.source_width ?? null`, and the person list. -/
def detectPass (bestDetect : Option DetectionFrame) : DetectPayload :=
  let objects := (bestDetect.bind (fun f => f.objects)).getD []
  let sw := bestDetect.bind (fun f => f.source_width)
  let sh := bestDetect.bind (fun f => f.source_height)
  { source_width := sw, source_height := sh, people := detectPeople objects sw }

theorem rankLe_trans (a b c : PersonRecord) :
    rankLe a b = true → rankLe b c = true → rankLe a c = true := by
  simp only [rankLe, decide_eq_true_iff]
  intro h1 h2
  exact le_trans h2 h1

theorem rankLe_total (a b : PersonRecord) : (rankLe a b || rankLe b a) = true := by
  simp only [rankLe, Bool.or_eq_true, decide_eq_true_iff]
  exact le_total (scorePerson b) (scorePerson a)

/-- C2 (amended: the filter compares the label after `trim()`): the ranked
output consists of exactly the records of objects whose trimmed label
case-insensitively equals "person" and whose confidence is ≥ 0.35; it is
sorted descending by `width × height × confidence`; records with equal score
keep their encounter order (stability, stated per score class); and an empty
or `null` input frame yields an empty people list. -/
theorem c2_person_ranker (objects : List DetectedObject) (sourceWidth : Option ℚ) :
    (detectPeople objects sourceWidth).Perm
      ((objects.filter keepObj).map (fun o => toPersonRecord o sourceWidth))
    ∧ (∀ r, r ∈ detectPeople objects sourceWidth ↔
        ∃ o, o ∈ objects ∧ keepObj o = true ∧ r = toPersonRecord o sourceWidth)
    ∧ (∀ o : DetectedObject, keepObj o = true ↔
        (toLowerStr (trimStr (o.classLabel.getD [])) = "person".data
          ∧ 0.35 ≤ o.confidence))
    ∧ (detectPeople objects sourceWidth).Pairwise
        (fun a b => scorePerson b ≤ scorePerson a)
    ∧ (∀ q : ℚ,
        (detectPeople objects sourceWidth).filter (fun p => scorePerson p == q)
          = ((objects.filter keepObj).map (fun o => toPersonRecord o sourceWidth)).filter
              (fun p => scorePerson p == q))
    ∧ (detectPass none).people = []
    ∧ (∀ sw2 sh2, (detectPass (some ⟨none, sw2, sh2⟩)).people = []
        ∧ (detectPass (some ⟨some [], sw2, sh2⟩)).people = []) := by
  have hperm := List.mergeSort_perm
    ((objects.filter keepObj).map (fun o => toPersonRecord o sourceWidth)) rankLe
  refine ⟨hperm, ?_, ?_, ?_, ?_, by simp [detectPass, detectPeople],
    fun sw2 sh2 => ⟨by simp [detectPass, detectPeople], by simp [detectPass, detectPeople]⟩⟩
  · intro r
    rw [detectPeople, hperm.mem_iff]
    simp only [List.mem_map, List.mem_filter]
    constructor
    · rintro ⟨o, ⟨ho, hk⟩, hr⟩
      exact ⟨o, ho, hk, hr.symm⟩
    · rintro ⟨o, ho, hk, hr⟩
      exact ⟨o, ⟨ho, hk⟩, hr.symm⟩
  · intro o
    simp [keepObj, labelLower, ge_iff_le]
  · have hs := List.sorted_mergeSort rankLe_trans rankLe_total
      ((objects.filter keepObj).map (fun o => toPersonRecord o sourceWidth))
    exact hs.imp (fun h => by simpa [rankLe] using h)
  · intro q
    set mapped := (objects.filter keepObj).map (fun o => toPersonRecord o sourceWidth)
      with hmapped
    set S := mapped.filter (fun p => scorePerson p == q) with hS
    have hmemS : ∀ a ∈ S, (scorePerson a == q) = true := by
      intro a ha
      exact (List.mem_filter.mp ha).2
    have hpair : S.Pairwise (fun a b => rankLe a b = true) := by
      apply List.pairwise_of_forall_mem_list
      intro a ha b hb
      have hqa : scorePerson a = q := by simpa using hmemS a ha
      have hqb : scorePerson b = q := by simpa using hmemS b hb
      simp [rankLe, hqa, hqb]
    have hsubS : S.Sublist (detectPeople objects sourceWidth) :=
      List.sublist_mergeSort rankLe_trans rankLe_total hpair
        (List.filter_sublist mapped)
    have hfsub : S.Sublist
        ((detectPeople objects sourceWidth).filter (fun p => scorePerson p == q)) := by
      have := List.Sublist.filter (fun p => scorePerson p == q) hsubS
      rwa [List.filter_eq_self.mpr hmemS] at this
    have hlen : S.length
        = ((detectPeople objects sourceWidth).filter (fun p => scorePerson p == q)).length :=
      (List.Perm.length_eq (List.Perm.filter _ hperm)).symm
    exact (hfsub.eq_of_length hlen).symm

/-- An object whose `classLabel` carries trailing whitespace: `"Person "`. -/
def trailingLabelObj : DetectedObject where
  classLabel := some ("Person ".data)
  confidence := 0.9
  x := 0
  y := 0
  width := 1
  height := 1

/-- C2 counterexample to the claim as frozen: the claim admits to the output
exactly the objects whose label case-insensitively equals "person", but the
code trims the label first (`labelLower` uses `.trim()`), so the object
labelled `"Person "` — whose label does not case-insensitively equal
"person" — is nevertheless ranked into the output. -/
theorem c2_trailing_whitespace_kept :
    toPersonRecord trailingLabelObj none ∈ detectPeople [trailingLabelObj] none
    ∧ toLowerStr ((trailingLabelObj.classLabel).getD []) ≠ "person".data := by
  constructor
  · have hl : labelLower trailingLabelObj.classLabel = "person".data := by decide
    have hc : trailingLabelObj.confidence = 0.9 := rfl
    have hk : keepObj trailingLabelObj = true := by
      rw [keepObj, hl, hc]
      simp only [beq_self_eq_true, Bool.true_and, decide_eq_true_iff, ge_iff_le]
      norm_num
    simp [detectPeople, hk]
  · decide

/-! ### Free-text scanning (`findGenderActivityInText`, `src/server/index.js`
lines 251–279) -/

/-- JS regex word characters (`\w` is `[A-Za-z0-9_]` for these patterns). -/
def isWordChar (c : Char) : Bool := c.isAlpha || c.isDigit || c = '_'

/-- Whether the first character of `post` (if any) fails to be a word
character: the `\b` after a pattern that ends in a word character. -/
def boundaryAfter : Str → Bool
  | [] => true
  | d :: _ => !isWordChar d

/-- The scan of `t.match(/\bw\b/)` for a pattern `w` made of word characters
(such as `male` and `female`): at each position, `w` matches if it is a
prefix there, the previous character (tracked in `prev`) is not a word
character, and the character after the match (if any) is not a word
character. -/
def hasWholeWordAux (w : Str) : Bool → Str → Bool
  | _, [] => false
  | prev, c :: rest =>
    (w.isPrefixOf (c :: rest) && !prev && boundaryAfter ((c :: rest).drop w.length))
      || hasWholeWordAux w (isWordChar c) rest

/-- `t.match(/\bw\b/) !== null` for an all-word-character pattern `w`. -/
def hasWholeWord (t w : Str) : Bool := hasWholeWordAux w false t

/-- `t.includes(pat)`: substring search. -/
def jsIncludes : Str → Str → Bool
  | [], pat => pat == []
  | c :: rest, pat => pat.isPrefixOf (c :: rest) || jsIncludes rest pat

/-- Specification-side predicate: no word character immediately before the
occurrence (`pre` empty, or with the scanner's start marker `prev` false). -/
def OkBefore (prev : Bool) (pre : Str) : Prop :=
  (pre = [] ∧ prev = false)
    ∨ (∃ c, pre.getLast? = some c ∧ isWordChar c = false)

/-- Specification-side predicate, following the claim's words: `w` occurs in
`t` as a whole word (word-character patterns: a non-word character, or an
end of the text, on both sides of the occurrence). -/
def WholeWordOccurs (t w : Str) : Prop :=
  ∃ pre post, t = pre ++ w ++ post
    ∧ OkBefore false pre
    ∧ (post = [] ∨ ∃ c, post.head? = some c ∧ isWordChar c = false)

theorem boundaryAfter_iff (post : Str) :
    boundaryAfter post = true
      ↔ (post = [] ∨ ∃ c, post.head? = some c ∧ isWordChar c = false) := by
  cases post with
  | nil => simp [boundaryAfter]
  | cons d rest => simp [boundaryAfter]

theorem jsIncludes_iff (pat : Str) :
    ∀ t : Str, jsIncludes t pat = true ↔ pat <:+: t := by
  intro t
  induction t with
  | nil =>
    simp only [jsIncludes, beq_iff_eq]
    constructor
    · intro h
      simp [h]
    · intro h
      simpa using List.eq_nil_of_infix_nil h
  | cons c rest ih =>
    simp only [jsIncludes, Bool.or_eq_true, List.isPrefixOf_iff_prefix, ih]
    exact List.infix_cons_iff.symm

theorem hasWholeWordAux_iff (w : Str) (hw : w ≠ []) :
    ∀ (t : Str) (prev : Bool),
      hasWholeWordAux w prev t = true
        ↔ ∃ pre post, t = pre ++ w ++ post
            ∧ OkBefore prev pre
            ∧ boundaryAfter post = true := by
  intro t
  induction t with
  | nil =>
    intro prev
    simp only [hasWholeWordAux]
    constructor
    · intro h
      cases h
    · rintro ⟨pre, post, heq, -, -⟩
      exfalso
      apply hw
      have h2 := heq.symm
      simp only [List.append_eq_nil] at h2
      tauto
  | cons c rest ih =>
    intro prev
    simp only [hasWholeWordAux, Bool.or_eq_true, Bool.and_eq_true,
      List.isPrefixOf_iff_prefix, Bool.not_eq_true']
    constructor
    · rintro (⟨⟨hpre, hprev⟩, hba⟩ | htail)
      · rcases hpre with ⟨post, hpost⟩
        refine ⟨[], post, by simpa using hpost.symm, Or.inl ⟨rfl, hprev⟩, ?_⟩
        rwa [← hpost, List.drop_left] at hba
      · rcases (ih (isWordChar c)).mp htail with ⟨pre2, post, heq, hok, hba⟩
        refine ⟨c :: pre2, post, by simp [heq], ?_, hba⟩
        rcases hok with ⟨hnil, hwc⟩ | ⟨d, hd, hwd⟩
        · subst hnil
          exact Or.inr ⟨c, rfl, hwc⟩
        · refine Or.inr ⟨d, ?_, hwd⟩
          cases pre2 with
          | nil => simp at hd
          | cons e tl => simpa [List.getLast?_cons_cons] using hd
    · rintro ⟨pre, post, heq, hok, hba⟩
      cases pre with
      | nil =>
        left
        simp only [List.nil_append] at heq
        refine ⟨⟨⟨post, heq.symm⟩, ?_⟩, ?_⟩
        · rcases hok with ⟨-, hprev⟩ | ⟨d, hd, -⟩
          · exact hprev
          · simp at hd
        · rw [heq, List.drop_left]
          exact hba
      | cons e pre2 =>
        right
        have hc : e = c := by
          have := congrArg (fun l => List.head? l) heq
          simpa using this.symm
        subst hc
        have heq2 : rest = pre2 ++ w ++ post := by
          have := congrArg List.tail heq
          simpa using this
        refine (ih (isWordChar e)).mpr ⟨pre2, post, heq2, ?_, hba⟩
        rcases hok with ⟨hnil, -⟩ | ⟨d, hd, hwd⟩
        · cases hnil
        · cases pre2 with
          | nil =>
            have hde : e = d := by simpa using hd
            exact Or.inl ⟨rfl, by rw [hde]; exact hwd⟩
          | cons f tl =>
            refine Or.inr ⟨d, ?_, hwd⟩
            simpa [List.getLast?_cons_cons] using hd
        
theorem hasWholeWord_iff (t w : Str) (hw : w ≠ []) :
    hasWholeWord t w = true ↔ WholeWordOccurs t w := by
  rw [hasWholeWord, hasWholeWordAux_iff w hw t false, WholeWordOccurs]
  constructor
  · rintro ⟨pre, post, heq, hok, hba⟩
    exact ⟨pre, post, heq, hok, (boundaryAfter_iff post).mp hba⟩
  · rintro ⟨pre, post, heq, hok, hpost⟩
    exact ⟨pre, post, heq, hok, (boundaryAfter_iff post).mpr hpost⟩

/-! ### The schema-unstable VI payload: a JSON tree

JavaScript objects keep key insertion order and have no duplicate keys;
fields are listed in order.  Non-string values stringify through
`String(...)` in ways the claims never exercise (the labels and categories
involved are strings or absent); `labelLowerJ` and `toNumJ` therefore map
such values to the empty string, respectively 0, and say so below. -/

mutual
inductive Json where
  | null
  | bool (b : Bool)
  | num (q : ℚ)
  | str (s : Str)
  | arr (items : JsonList)
  | obj (fields : JsonFields)
  deriving DecidableEq
inductive JsonList where
  | nil
  | cons (hd : Json) (tl : JsonList)
  deriving DecidableEq
inductive JsonFields where
  | nil
  | fcons (key : Str) (val : Json) (tl : JsonFields)
  deriving DecidableEq
end

/-- Property lookup `node[k]` on an object's field list. -/
def getFieldF : JsonFields → Str → Option Json
  | .nil, _ => none
  | .fcons key v t, k => if key == k then some v else getFieldF t k

/-- Property lookup `node.k`: `none` (JS `undefined`) off objects. -/
def getField : Json → Str → Option Json
  | .obj fs, k => getFieldF fs k
  | _, _ => none

/-- `for (const c of node.classes) if (c && typeof c === "object") out.push(c)`:
the object- or array-valued entries of a `classes` array. -/
def classEntries : JsonList → List Json
  | .nil => []
  | .cons h t =>
    (match h with
     | .obj _ => [h]
     | .arr _ => [h]
     | _ => []) ++ classEntries t

mutual
/-- `collectClassesDeep(node)` (`src/server/index.js` lines 166–186): push the
object-valued elements of any `classes` array met anywhere, then recurse into
every object- or array-valued child (JS arrays enumerate their indices under
`Object.keys`, so an array node recurses into its elements). -/
def collectClassesDeep : Json → List Json
  | .obj fs =>
    (match getFieldF fs ("classes".data) with
     | some (.arr items) => classEntries items
     | _ => []) ++ collectCCDFields fs
  | .arr items => collectCCDItems items
  | _ => []
/-- The `for (const key of Object.keys(node))` loop: an array-valued child
has `collectClassesDeep` applied to each of its items, an object-valued child
is recursed into, primitives are skipped. -/
def collectCCDFields : JsonFields → List Json
  | .nil => []
  | .fcons _ v t =>
    (match v with
     | .arr items => collectCCDItems items
     | .obj fs2 => collectClassesDeep (.obj fs2)
     | _ => []) ++ collectCCDFields t
/-- `for (const item of val) collectClassesDeep(item, out)`. -/
def collectCCDItems : JsonList → List Json
  | .nil => []
  | .cons h t => collectClassesDeep h ++ collectCCDItems t
end

mutual
/-- `collectAllStrings(node)` (`src/server/index.js` lines 281–298): every
string value anywhere in the graph, in depth-first key order. -/
def collectAllStrings : Json → List Str
  | .str s => [s]
  | .arr items => collectASL items
  | .obj fs => collectASF fs
  | _ => []
def collectASL : JsonList → List Str
  | .nil => []
  | .cons h t => collectAllStrings h ++ collectASL t
def collectASF : JsonFields → List Str
  | .nil => []
  | .fcons _ v t => collectAllStrings v ++ collectASF t
end

/-- `labelLower` applied to a JS property value: `String(v ?? "")` of a
string is the string itself; `undefined`/`null` give `""`.  The claims never
reach this function with a number, boolean, array or object in a
category/label field, and such values are modelled as stringifying to `""`. -/
def labelLowerJ (v : Option Json) : Str :=
  match v with
  | some (.str s) => labelLower (some s)
  | _ => []

/-- `toNum` applied to a JS property value (fallback 0): numbers are
themselves, `true`/`false` are 1/0, `null` is 0, `undefined` is the
fallback 0.  Numeric strings (never produced in a `confidence` field by the
claims) are modelled as the fallback. -/
def toNumJ (v : Option Json) : ℚ :=
  match v with
  | some (.num q) => q
  | some (.bool b) => if b then 1 else 0
  | _ => 0

/-- JS truthiness of a value. -/
def jsTruthy : Json → Bool
  | .null => false
  | .bool b => b
  | .num q => decide (q ≠ 0)
  | .str s => !(s == [])
  | .arr _ => true
  | .obj _ => true

/-- A JS `a || b || …` chain over property values: the first truthy value,
else `none` (all-falsy chains are only ever consumed by null-tolerant
consumers below). -/
def jsOrVals : List (Option Json) → Option Json
  | [] => none
  | v :: rest =>
    match v with
    | some j => if jsTruthy j then some j else jsOrVals rest
    | none => jsOrVals rest

/-- The first non-empty string among a chain of
`(typeof f === "string" && f) || …` alternatives, else `""`. -/
def firstStrField : List (Option Json) → Str
  | [] => []
  | some (.str s) :: rest => if s == [] then firstStrField rest else s
  | _ :: rest => firstStrField rest

/-- The textual label of one class entry inside `extractLabelText`:
`(typeof c.classLabel === "string" && c.classLabel) || (… label) || (… name) || ""`. -/
def entryText (c : Json) : Str :=
  firstStrField
    [getField c ("classLabel".data), getField c ("label".data), getField c ("name".data)]

/-- The labels pushed by `extractLabelText` (only non-empty ones). -/
def labelTexts : List Json → List Str
  | [] => []
  | c :: rest =>
    (let s := entryText c
     if s == [] then [] else [s]) ++ labelTexts rest

/-- `texts.join(" | ")`. -/
def joinBar : List Str → Str
  | [] => []
  | [s] => s
  | s :: rest => s ++ (" | ".data) ++ joinBar rest

/-- `extractLabelText(classes)` (`src/server/index.js` lines 209–220). -/
def extractLabelText (classes : List Json) : Str :=
  joinBar (labelTexts classes)

/-- The category string of one entry inside `bestByCategory`:
`labelLower(c.category) || labelLower(c.categoryName) ||
labelLower(c.category_name) || labelLower(c.name)` (first non-empty). -/
def catOf (c : Json) : Str :=
  match labelLowerJ (getField c ("category".data)) with
  | [] =>
    match labelLowerJ (getField c ("categoryName".data)) with
    | [] =>
      match labelLowerJ (getField c ("category_name".data)) with
      | [] => labelLowerJ (getField c ("name".data))
      | s => s
    | s => s
  | s => s

/-- The loop of `bestByCategory` (`src/server/index.js` lines 188–207):
skip entries without a category string; an entry whose category equals or
contains the wanted name becomes the running best when its confidence
strictly exceeds the best's (so the earliest highest-confidence match is
retained). -/
def bestByCategoryGo (want : Str) : List Json → Option Json → Option Json
  | [], best => best
  | c :: rest, best =>
    let cat := catOf c
    if cat == [] then bestByCategoryGo want rest best
    else if cat == want || jsIncludes cat want then
      match best with
      | none => bestByCategoryGo want rest (some c)
      | some b =>
        if toNumJ (getField c ("confidence".data))
            > toNumJ (getField b ("confidence".data)) then
          bestByCategoryGo want rest (some c)
        else bestByCategoryGo want rest best
    else bestByCategoryGo want rest best

/-- `bestByCategory(classes, wantCategory)`. -/
def bestByCategory (classes : List Json) (wantCategory : Str) : Option Json :=
  bestByCategoryGo (toLowerStr wantCategory) classes none

/-- `normalizeGender(v)` (`src/server/index.js` lines 222–228): only strings
normalize; `male` is checked before `female` (note `"female"` does not
contain `" male"`, whose leading space is part of the pattern). -/
def normalizeGender (v : Option Json) : Option Str :=
  match v with
  | some (.str s) =>
    let g := toLowerStr (trimStr s)
    if g == "male".data || jsIncludes g (" male".data) then some ("male".data)
    else if g == "female".data || jsIncludes g (" female".data) then some ("female".data)
    else none
  | _ => none

/-- The fixed activity vocabulary, in source order (`src/server/index.js`
lines 259–270 and 233–244 list the same ten keywords). -/
def actsList : List Str :=
  ["walking".data, "running".data, "sitting".data, "standing".data,
   "exercising".data, "eating".data, "talking".data, "working".data,
   "playing".data, "other".data]

/-- The keyword loop of `normalizeActivity`: the first keyword the string
equals or contains. -/
def firstActivityMatch (a : Str) : List Str → Option Str
  | [] => none
  | k :: rest =>
    if a == k || jsIncludes a k then some k else firstActivityMatch a rest

/-- `normalizeActivity(v)` (`src/server/index.js` lines 230–249). -/
def normalizeActivity (v : Option Json) : Option Str :=
  match v with
  | some (.str s) => firstActivityMatch (toLowerStr (trimStr s)) actsList
  | _ => none

/-- The keyword loop of `findGenderActivityInText`: the first keyword of the
fixed order occurring as a substring (`t.includes(a)`, then `break`). -/
def firstContained (t : Str) : List Str → Option Str
  | [] => none
  | a :: rest => if jsIncludes t a then some a else firstContained t rest

/-- `findGenderActivityInText(text)` (`src/server/index.js` lines 251–279):
whole-word gender scan (`female` assigned first, `male` only if gender is
still null) and first-contained activity keyword, on the lower-cased text. -/
def findGenderActivityInText (text : Str) : Option Str × Option Str :=
  let t := toLowerStr text
  let gender1 : Option Str :=
    if hasWholeWord t ("female".data) then some ("female".data) else none
  let gender : Option Str :=
    if hasWholeWord t ("male".data) then
      match gender1 with
      | some g => some g
      | none => some ("male".data)
    else gender1
  (gender, firstContained t actsList)

/-! ### The VI extraction cascade (`/api/infer` vi pass, `src/server/index.js`
lines 352–416) -/

/-- `collectClassesDeep(bestVI, [])` with `bestVI` possibly `null`. -/
def collectedClasses : Option Json → List Json
  | none => []
  | some j => collectClassesDeep j

/-- The concatenated label text of the collected class entries. -/
def viLabelText (bestVI : Option Json) : Str :=
  extractLabelText (collectedClasses bestVI)

/-- `collectAllStrings(bestVI, []).join(" | ")`. -/
def viGiantText (bestVI : Option Json) : Str :=
  joinBar (match bestVI with | none => [] | some j => collectAllStrings j)

/-- `(g0 && (g0.classLabel || g0.label || g0.name)) || null`, the value handed
to a normalizer for the best entry of a category. -/
def entryLabelValue (c : Json) : Option Json :=
  jsOrVals [getField c ("classLabel".data), getField c ("label".data),
    getField c ("name".data)]

/-- The structured-stage gender: stages 1–3 of the cascade. -/
def structGenderVal (bestVI : Option Json) : Option Str :=
  normalizeGender
    ((bestByCategory (collectedClasses bestVI) ("gender".data)).bind entryLabelValue)

/-- The structured-stage activity: stages 1–3 of the cascade. -/
def structActivityVal (bestVI : Option Json) : Option Str :=
  normalizeActivity
    ((bestByCategory (collectedClasses bestVI) ("activity".data)).bind entryLabelValue)

/-- JS `a || b` on a nullable extracted value (the extracted strings
`"male"`, `"female"` and the activity keywords are never empty). -/
def jsOrOpt (a b : Option Str) : Option Str :=
  match a with
  | some x => some x
  | none => b

/-- The four values the vi pass attaches to the nearest person. -/
structure ViValues where
  gender : Option Str
  genderConfidence : ℚ
  activity : Option Str
  activityConfidence : ℚ
  deriving DecidableEq

/-- The extraction cascade of the vi pass, from the selected best VI payload:
structured pass, then (only when a value is still missing) the label-text
scan, then (only when a value is still missing) the all-strings scan. -/
def viCompute (bestVI : Option Json) : ViValues :=
  let g0 := bestByCategory (collectedClasses bestVI) ("gender".data)
  let a0 := bestByCategory (collectedClasses bestVI) ("activity".data)
  let genderVal0 := normalizeGender (g0.bind entryLabelValue)
  let activityVal0 := normalizeActivity (a0.bind entryLabelValue)
  let p1 : Option Str × Option Str :=
    if genderVal0.isNone || activityVal0.isNone then
      let ga := findGenderActivityInText (viLabelText bestVI)
      (jsOrOpt genderVal0 ga.1, jsOrOpt activityVal0 ga.2)
    else (genderVal0, activityVal0)
  let p2 : Option Str × Option Str :=
    if p1.1.isNone || p1.2.isNone then
      let ga2 := findGenderActivityInText (viGiantText bestVI)
      (jsOrOpt p1.1 ga2.1, jsOrOpt p1.2 ga2.2)
    else p1
  { gender := p2.1
    genderConfidence := toNumJ (g0.bind (fun c => getField c ("confidence".data)))
    activity := p2.2
    activityConfidence := toNumJ (a0.bind (fun c => getField c ("confidence".data))) }

theorem firstContained_eq_none_iff (t : Str) (l : List Str) :
    firstContained t l = none ↔ ∀ a ∈ l, jsIncludes t a = false := by
  induction l with
  | nil => simp [firstContained]
  | cons a rest ih =>
    by_cases h : jsIncludes t a = true
    · simp [firstContained, h]
    · have h2 : jsIncludes t a = false := by
        cases hval : jsIncludes t a
        · rfl
        · exact absurd hval h
      simp [firstContained, h2, ih]

theorem firstContained_eq_some (t : Str) (l : List Str) (a : Str) :
    firstContained t l = some a →
      jsIncludes t a = true
      ∧ ∃ pre post, l = pre ++ a :: post ∧ ∀ b ∈ pre, jsIncludes t b = false := by
  induction l with
  | nil => intro h; cases h
  | cons x rest ih =>
    intro h
    by_cases hx : jsIncludes t x = true
    · rw [firstContained, if_pos hx] at h
      cases h
      exact ⟨hx, [], rest, rfl, by simp⟩
    · have hx2 : jsIncludes t x = false := by
        cases hval : jsIncludes t x
        · rfl
        · exact absurd hval hx
      rw [firstContained, if_neg (by simp [hx2])] at h
      rcases ih h with ⟨hinc, pre, post, heq, hpre⟩
      refine ⟨hinc, x :: pre, post, by simp [heq], ?_⟩
      intro b hb
      rcases List.mem_cons.mp hb with hb | hb
      · rw [hb]; exact hx2
      · exact hpre b hb

/-- The concrete payload of the claim's first example: a `classes` array
containing `{category: "Gender", classLabel: "Female", confidence: 0.9}`. -/
def genderClassesPayload : Json :=
  .obj (.fcons ("classes".data)
    (.arr (.cons
      (.obj (.fcons ("category".data) (.str ("Gender".data))
        (.fcons ("classLabel".data) (.str ("Female".data))
        (.fcons ("confidence".data) (.num 0.9) .nil))))
      .nil))
    .nil)

/-- The concrete payload of the claim's second example: no structured
entries, only free text containing "the person is running". -/
def runningTextPayload : Json :=
  .obj (.fcons ("answer".data) (.str ("the person is running".data)) .nil)

/-- C7: the free-text fallback scan extracts gender `"female"` exactly when
`female` occurs as a whole word, else `"male"` exactly when `male` occurs as
a whole word, else null; it extracts as activity the first keyword of the
fixed order that occurs as a substring, else null; each fallback stage is
consulted for an attribute only when the earlier stages produced no value
for that attribute (the cascade is a per-attribute first-some chain); and
the two concrete examples extract `gender = "female"` (structured entry)
and `activity = "running"` (free text, no structured entries). -/
theorem c7_fallback_extraction (text : Str) (bestVI : Option Json) :
    ((findGenderActivityInText text).1 = some ("female".data)
        ↔ WholeWordOccurs (toLowerStr text) ("female".data))
    ∧ ((findGenderActivityInText text).1 = some ("male".data)
        ↔ (¬ WholeWordOccurs (toLowerStr text) ("female".data)
            ∧ WholeWordOccurs (toLowerStr text) ("male".data)))
    ∧ ((findGenderActivityInText text).1 = none
        ↔ (¬ WholeWordOccurs (toLowerStr text) ("female".data)
            ∧ ¬ WholeWordOccurs (toLowerStr text) ("male".data)))
    ∧ ((findGenderActivityInText text).2 = none
        ↔ ∀ a ∈ actsList, ¬ a <:+: toLowerStr text)
    ∧ (∀ a, (findGenderActivityInText text).2 = some a →
        a <:+: toLowerStr text
        ∧ ∃ pre post, actsList = pre ++ a :: post
            ∧ ∀ b ∈ pre, ¬ b <:+: toLowerStr text)
    ∧ (viCompute bestVI).gender
        = jsOrOpt (jsOrOpt (structGenderVal bestVI)
            (findGenderActivityInText (viLabelText bestVI)).1)
          (findGenderActivityInText (viGiantText bestVI)).1
    ∧ (viCompute bestVI).activity
        = jsOrOpt (jsOrOpt (structActivityVal bestVI)
            (findGenderActivityInText (viLabelText bestVI)).2)
          (findGenderActivityInText (viGiantText bestVI)).2
    ∧ (viCompute (some genderClassesPayload)).gender = some ("female".data)
    ∧ (viCompute (some runningTextPayload)).activity = some ("running".data)
    ∧ collectedClasses (some runningTextPayload) = [] := by
  have hfe : ("female".data : Str) ≠ [] := by decide
  have hma : ("male".data : Str) ≠ [] := by decide
  have hWf := hasWholeWord_iff (toLowerStr text) ("female".data) hfe
  have hWm := hasWholeWord_iff (toLowerStr text) ("male".data) hma
  refine ⟨?_, ?_, ?_, ?_, ?_, ?_, ?_, by decide, by decide, by decide⟩
  · rw [← hWf]
    simp only [findGenderActivityInText]
    cases hf : hasWholeWord (toLowerStr text) ("female".data) <;>
      cases hm : hasWholeWord (toLowerStr text) ("male".data) <;>
        simp [hf, hm]
  · rw [← hWf, ← hWm]
    simp only [findGenderActivityInText]
    cases hf : hasWholeWord (toLowerStr text) ("female".data) <;>
      cases hm : hasWholeWord (toLowerStr text) ("male".data) <;>
        simp [hf, hm]
  · rw [← hWf, ← hWm]
    simp only [findGenderActivityInText]
    cases hf : hasWholeWord (toLowerStr text) ("female".data) <;>
      cases hm : hasWholeWord (toLowerStr text) ("male".data) <;>
        simp [hf, hm]
  · simp only [findGenderActivityInText]
    rw [firstContained_eq_none_iff]
    constructor
    · intro h a ha
      rw [← jsIncludes_iff]
      simp [h a ha]
    · intro h a ha
      cases hval : jsIncludes (toLowerStr text) a
      · rfl
      · exact absurd ((jsIncludes_iff a (toLowerStr text)).mp hval) (h a ha)
  · intro a ha
    simp only [findGenderActivityInText] at ha
    rcases firstContained_eq_some _ _ _ ha with ⟨hinc, pre, post, heq, hpre⟩
    refine ⟨(jsIncludes_iff a (toLowerStr text)).mp hinc, pre, post, heq, ?_⟩
    intro b hb hbin
    have h1 : jsIncludes (toLowerStr text) b = true :=
      (jsIncludes_iff b (toLowerStr text)).mpr hbin
    cases (h1.symm.trans (hpre b hb))
  · simp only [viCompute, structGenderVal]
    cases hg : normalizeGender
        ((bestByCategory (collectedClasses bestVI) ("gender".data)).bind
          entryLabelValue) <;>
      cases ha : normalizeActivity
          ((bestByCategory (collectedClasses bestVI) ("activity".data)).bind
            entryLabelValue) <;>
        simp [hg, ha, jsOrOpt] <;>
          cases h4 : (findGenderActivityInText (viLabelText bestVI)).2 <;>
            cases h5 : (findGenderActivityInText (viLabelText bestVI)).1 <;>
              simp [h4, h5, jsOrOpt]
  · simp only [viCompute, structActivityVal]
    cases hg : normalizeGender
        ((bestByCategory (collectedClasses bestVI) ("gender".data)).bind
          entryLabelValue) <;>
      cases ha : normalizeActivity
          ((bestByCategory (collectedClasses bestVI) ("activity".data)).bind
            entryLabelValue) <;>
        simp [hg, ha, jsOrOpt] <;>
          cases h4 : (findGenderActivityInText (viLabelText bestVI)).2 <;>
            cases h5 : (findGenderActivityInText (viLabelText bestVI)).1 <;>
              simp [h4, h5, jsOrOpt]

/-! ### Attaching VI results (`src/server/index.js` lines 389–416) -/

/-- The keys of an object's field list, in insertion order. -/
def keysF : JsonFields → List Str
  | .nil => []
  | .fcons k _ t => k :: keysF t

/-- The `vi_debug` diagnostics object (`debug=1` only). -/
structure ViDebugInfo where
  vi_keys : List Str
  classes_len : Nat
  sample_classes : List Json
  label_text : Str
  strings_sample : List Str

/-- The `vi_debug` value computed from the best VI payload. -/
def viDebugOf (bestVI : Option Json) : ViDebugInfo where
  vi_keys :=
    match bestVI with
    | some (.obj fs) => keysF fs
    | _ => []
  classes_len := (collectedClasses bestVI).length
  sample_classes := (collectedClasses bestVI).take 8
  label_text := viLabelText bestVI
  strings_sample :=
    (match bestVI with | none => [] | some j => collectAllStrings j).take 30

/-- The vi-mode response: the detect payload spread into a new object, with
a possibly-updated person 0 and an optional `vi_debug`. -/
structure ViResponse where
  source_width : Option ℚ
  source_height : Option ℚ
  people : List PersonRecord
  vi_debug : Option ViDebugInfo

/-- `out.people[0] = {...out.people[0], gender, genderConfidence, activity,
activityConfidence}`: copy a person record, overwriting the four extracted
fields. -/
def attachViValues (p : PersonRecord) (v : ViValues) : PersonRecord :=
  { p with
    gender := v.gender
    genderConfidence := v.genderConfidence
    activity := v.activity
    activityConfidence := v.activityConfidence }

/-- The vi pass: `out = {...detectPayload, people: [...people]}`; if the list
is non-empty, person 0 is replaced by a copy with the four extracted fields;
`vi_debug` is attached only when `debug=1`. -/
def viPass (dp : DetectPayload) (bestVI : Option Json) (debug : Bool) : ViResponse :=
  let v := viCompute bestVI
  { source_width := dp.source_width
    source_height := dp.source_height
    people :=
      (match dp.people with
       | [] => []
       | p :: rest => attachViValues p v :: rest)
    vi_debug := if debug then some (viDebugOf bestVI) else none }

/-- C8: in vi mode the response differs from the detect-pass payload at most
in the gender, genderConfidence, activity and activityConfidence fields of
the person at index 0 (and the optional `vi_debug` object): the source
dimensions, every person at index 1 or greater (the whole tail), the list
length and order, and the confidence/x/y/width/height/position fields of
person 0 are identical to the detect result; with an empty people list no
record is added or modified. -/
theorem c8_vi_attaches_only_person0 (dp : DetectPayload) (bestVI : Option Json)
    (debug : Bool) :
    (viPass dp bestVI debug).source_width = dp.source_width
    ∧ (viPass dp bestVI debug).source_height = dp.source_height
    ∧ (viPass dp bestVI debug).people.length = dp.people.length
    ∧ (viPass dp bestVI debug).people.tail = dp.people.tail
    ∧ ((viPass dp bestVI debug).people.head?).map PersonRecord.confidence
        = (dp.people.head?).map PersonRecord.confidence
    ∧ ((viPass dp bestVI debug).people.head?).map PersonRecord.x
        = (dp.people.head?).map PersonRecord.x
    ∧ ((viPass dp bestVI debug).people.head?).map PersonRecord.y
        = (dp.people.head?).map PersonRecord.y
    ∧ ((viPass dp bestVI debug).people.head?).map PersonRecord.width
        = (dp.people.head?).map PersonRecord.width
    ∧ ((viPass dp bestVI debug).people.head?).map PersonRecord.height
        = (dp.people.head?).map PersonRecord.height
    ∧ ((viPass dp bestVI debug).people.head?).map PersonRecord.position
        = (dp.people.head?).map PersonRecord.position
    ∧ ((viPass dp bestVI debug).people.head?).map PersonRecord.gender
        = (dp.people.head?).map (fun _ => (viCompute bestVI).gender)
    ∧ ((viPass dp bestVI debug).people.head?).map PersonRecord.genderConfidence
        = (dp.people.head?).map (fun _ => (viCompute bestVI).genderConfidence)
    ∧ ((viPass dp bestVI debug).people.head?).map PersonRecord.activity
        = (dp.people.head?).map (fun _ => (viCompute bestVI).activity)
    ∧ ((viPass dp bestVI debug).people.head?).map PersonRecord.activityConfidence
        = (dp.people.head?).map (fun _ => (viCompute bestVI).activityConfidence)
    ∧ ((viPass dp bestVI debug).people = [] ↔ dp.people = [])
    ∧ (viPass dp bestVI debug).vi_debug
        = (if debug then some (viDebugOf bestVI) else none) := by
  cases hp : dp.people with
  | nil =>
    refine ⟨rfl, rfl, ?_, ?_, ?_, ?_, ?_, ?_, ?_, ?_, ?_, ?_, ?_, ?_, ?_, rfl⟩ <;>
      simp [viPass, hp]
  | cons p rest =>
    refine ⟨rfl, rfl, ?_, ?_, ?_, ?_, ?_, ?_, ?_, ?_, ?_, ?_, ?_, ?_, ?_, rfl⟩ <;>
      simp [viPass, hp, attachViValues]

/-! ### Auto-repeat announcement dedup (`src/public/app.js` lines 238–251,
254–306, 340–375) -/

/-- `autoBucketForCount(count)`: the 0 / 1 / 2 / 3-or-more count class. -/
def autoBucketForCount (count : Nat) : Str :=
  if count ≤ 0 then "c0".data
  else if count = 1 then "c1".data
  else if count = 2 then "c2".data
  else "c3plus".data

/-- `nicePosition(best)`: the best person's position when it is one of
left/right/center, else `"center"` (also when there is no person). -/
def nicePosition (best : Option PersonRecord) : Str :=
  match best with
  | none => "center".data
  | some b =>
    let p := toLowerStr b.position
    if p == "left".data || p == "right".data || p == "center".data then p
    else "center".data

/-- `autoKey(count, best)`: the count class, with the nearest-person position
appended (after `"|"`) when the count class is not `"c0"`. -/
def autoKey (count : Nat) (best : Option PersonRecord) : Str :=
  let bucket := autoBucketForCount count
  if bucket == "c0".data then bucket
  else bucket ++ ("|".data) ++ nicePosition best

/-- The observable outcome of one auto-repeat capture cycle. -/
inductive CycleOutcome where
  | success (people : List PersonRecord)
  | failure

/-- The announcement bucket of a cycle: `autoKey(count, best)` on success,
the `"error"` sentinel on failure. -/
def cycleKey : CycleOutcome → Str
  | .success people => autoKey people.length people.head?
  | .failure => "error".data

/-- The auto-repeat dedup state of the client: the mode flag, the interval
timer, and `lastAutoKey`. -/
structure AutoState where
  autoRepeatOn : Bool
  timerOn : Bool
  lastAutoKey : Option Str

/-- One completed auto-mode cycle of `doDetect` (both the success branch and
the catch branch): compute the key, announce iff `lastAutoKey === null ||
key !== lastAutoKey`, store the key.  Returns the new state and whether an
announcement was spoken. -/
def autoCycle (s : AutoState) (r : CycleOutcome) : AutoState × Bool :=
  let key := cycleKey r
  let changed : Bool :=
    match s.lastAutoKey with
    | none => true
    | some k => !(key == k)
  ({ s with lastAutoKey := some key }, changed)

/-- `enterAutoRepeat()`: a no-op when already on; otherwise turn the mode on,
reset `lastAutoKey` to null (so the first result speaks) and start the
interval timer. -/
def enterAutoRepeat (s : AutoState) : AutoState :=
  if s.autoRepeatOn then s
  else { autoRepeatOn := true, timerOn := true, lastAutoKey := none }

/-- `exitAutoRepeat()`: a no-op when already off; otherwise turn the mode off
and clear the interval timer.  (`lastAutoKey` is not touched here.) -/
def exitAutoRepeat (s : AutoState) : AutoState :=
  if s.autoRepeatOn then
    { autoRepeatOn := false, timerOn := false, lastAutoKey := s.lastAutoKey }
  else s

/-- C3 (amended: the dedup key is cleared on (re)activation, not on
deactivation): an auto-mode cycle announces iff its bucket (count class with
nearest-person position when the count is positive, or the `"error"`
sentinel) differs from the stored previous bucket or no bucket is stored;
activation clears the stored bucket, so the first cycle after a
(re)activation always announces; deactivation stops the repeat timer and
turns the mode off while leaving the stored bucket in place, and because
activation clears it, a future reactivation still always announces its
first result. -/
theorem c3_auto_repeat_dedup (s : AutoState) (r : CycleOutcome) :
    ((autoCycle s r).2 = true
      ↔ (s.lastAutoKey = none ∨ s.lastAutoKey ≠ some (cycleKey r)))
    ∧ (autoCycle s r).1.lastAutoKey = some (cycleKey r)
    ∧ (autoCycle s r).1.autoRepeatOn = s.autoRepeatOn
    ∧ cycleKey .failure = "error".data
    ∧ cycleKey (.success []) = "c0".data
    ∧ (∀ p ps, cycleKey (.success (p :: ps))
        = autoBucketForCount (p :: ps).length ++ ("|".data)
            ++ nicePosition (some p))
    ∧ (s.autoRepeatOn = false → (enterAutoRepeat s).lastAutoKey = none)
    ∧ (s.autoRepeatOn = false → (autoCycle (enterAutoRepeat s) r).2 = true)
    ∧ (s.autoRepeatOn = true → (exitAutoRepeat s).timerOn = false)
    ∧ ((exitAutoRepeat s).autoRepeatOn = false ∨ (exitAutoRepeat s) = s)
    ∧ (exitAutoRepeat s).lastAutoKey = s.lastAutoKey
    ∧ (s.autoRepeatOn = true →
        (autoCycle (enterAutoRepeat (exitAutoRepeat s)) r).2 = true) := by
  refine ⟨?_, rfl, rfl, rfl, ?_, ?_, ?_, ?_, ?_, ?_⟩
  · simp only [autoCycle]
    cases hk : s.lastAutoKey with
    | none => simp
    | some k =>
      simp only [Bool.not_eq_true']
      constructor
      · intro h
        right
        intro hcontra
        have : cycleKey r = k := by
          injection hcontra.symm
        simp [this] at h
      · rintro (h | h)
        · cases h
        · have hne : ¬ (cycleKey r == k) = true := by
            intro hc
            exact h (by rw [beq_iff_eq.mp hc])
          simpa using hne
  · simp [cycleKey, autoKey, autoBucketForCount]
  · intro p ps
    have hb : autoBucketForCount (ps.length + 1) ≠ "c0".data := by
      simp only [autoBucketForCount]
      rw [if_neg (by omega)]
      by_cases h2 : ps.length + 1 = 1
      · rw [if_pos h2]
        decide
      · rw [if_neg h2]
        by_cases h3 : ps.length + 1 = 2
        · rw [if_pos h3]
          decide
        · rw [if_neg h3]
          decide
    have hb2 : (autoBucketForCount (ps.length + 1) == "c0".data) = false := by
      simpa using hb
    simp [cycleKey, autoKey, hb2]
  · intro h
    simp [enterAutoRepeat, h]
  · intro h
    simp [enterAutoRepeat, h, autoCycle]
  · intro hon
    simp [exitAutoRepeat, hon]
  · refine ⟨?_, ?_, ?_⟩
    · by_cases hon : s.autoRepeatOn
      · left
        simp [exitAutoRepeat, hon]
      · right
        simp [exitAutoRepeat, hon]
    · by_cases hon : s.autoRepeatOn
      · simp [exitAutoRepeat, hon]
      · simp [exitAutoRepeat, hon]
    · intro hon
      simp [exitAutoRepeat, hon, enterAutoRepeat, autoCycle]

/-- A concrete person record used by the dedup counterexample. -/
def centerPerson : PersonRecord where
  confidence := 1
  x := 0
  y := 0
  width := 1
  height := 1
  position := "center".data
  gender := none
  genderConfidence := 0
  activity := none
  activityConfidence := 0

/-- C3 counterexample to the claim as frozen: after activating, completing a
cycle (bucket `c1|center`) and deactivating, the deactivated state still
holds the dedup bucket — `exitAutoRepeat` stops the timer but does not clear
the dedup state (that clearing happens in `enterAutoRepeat`). -/
theorem c3_exit_keeps_dedup_state :
    (exitAutoRepeat
        (autoCycle (enterAutoRepeat ⟨false, false, none⟩)
          (.success [centerPerson])).1).autoRepeatOn = false
    ∧ (exitAutoRepeat
        (autoCycle (enterAutoRepeat ⟨false, false, none⟩)
          (.success [centerPerson])).1).timerOn = false
    ∧ (exitAutoRepeat
        (autoCycle (enterAutoRepeat ⟨false, false, none⟩)
          (.success [centerPerson])).1).lastAutoKey ≠ none := by
  refine ⟨rfl, rfl, ?_⟩
  decide

/-! ### Promise chains: per-session exclusivity (`src/server/index.js`
lines 33–37 and 78–82) and the speech queue (`src/public/app.js` lines 45–67)

The deferred chains are deterministic in the single-threaded model: a run of
a promise records the trace of operation events observed once it settles,
together with its settled outcome.  A `.then` continuation starts only after
the promise it chains onto has settled, so its events follow in the trace. -/

/-- Start / finish of the `i`-th submitted operation. -/
inductive OpEvent where
  | start (i : Nat)
  | finish (i : Nat)
  deriving DecidableEq

/-- The settled outcome of a promise: fulfilled or rejected. -/
inductive Outcome where
  | ok
  | err
  deriving DecidableEq

/-- A settled promise: the event trace produced while it ran, and its
outcome. -/
structure PromiseRun where
  events : List OpEvent
  result : Outcome
  deriving DecidableEq

/-- The run of the `i`-th submitted opaque operation: it starts, works, and
finishes with its own outcome. -/
def opRun (i : Nat) (o : Outcome) : PromiseRun :=
  { events := [.start i, .finish i], result := o }

/-- `p.then(f, g)`: whichever of the two continuations matches `p`'s outcome
runs after `p` settles. -/
def pThen2 (p : PromiseRun) (onOk onErr : PromiseRun) : PromiseRun :=
  match p.result with
  | .ok => { events := p.events ++ onOk.events, result := onOk.result }
  | .err => { events := p.events ++ onErr.events, result := onErr.result }

/-- `p.then(f)`: the continuation runs only on fulfillment; a rejection
skips it and propagates. -/
def pThen1 (p : PromiseRun) (onOk : PromiseRun) : PromiseRun :=
  match p.result with
  | .ok => { events := p.events ++ onOk.events, result := onOk.result }
  | .err => p

/-- `p.catch(() => {})`: a rejection is absorbed into fulfillment. -/
def pCatch (p : PromiseRun) : PromiseRun :=
  match p.result with
  | .ok => p
  | .err => { events := p.events, result := .ok }

/-- `runDetectExclusive` / `runVIExclusive`: each submission replaces the
queue by `queue.then(fn, fn)`, so the new operation runs after the previous
settles, on success and on failure alike.  Operations are opaque and
modelled by their outcomes, numbered from `i`. -/
def chainExclusiveGo : List Outcome → Nat → PromiseRun → PromiseRun
  | [], _, q => q
  | o :: rest, i, q => chainExclusiveGo rest (i + 1) (pThen2 q (opRun i o) (opRun i o))

/-- The whole per-session queue, starting from `Promise.resolve()`. -/
def chainExclusive (ops : List Outcome) : PromiseRun :=
  chainExclusiveGo ops 0 { events := [], result := .ok }

/-- The fully serialized trace `start i, finish i, start (i+1), …` of `k`
operations numbered from `i`. -/
def serialTraceFrom : Nat → Nat → List OpEvent
  | _, 0 => []
  | i, Nat.succ k => .start i :: .finish i :: serialTraceFrom (i + 1) k

/-- The fully serialized trace of `n` operations numbered from 0. -/
def serialTrace (n : Nat) : List OpEvent := serialTraceFrom 0 n

theorem chainExclusiveGo_events (ops : List Outcome) :
    ∀ (i : Nat) (evs : List OpEvent) (res : Outcome),
      (chainExclusiveGo ops i { events := evs, result := res }).events
        = evs ++ serialTraceFrom i ops.length := by
  induction ops with
  | nil =>
    intro i evs res
    simp [chainExclusiveGo, serialTraceFrom]
  | cons o rest ih =>
    intro i evs res
    cases res with
    | ok =>
      rw [chainExclusiveGo]
      show (chainExclusiveGo rest (i + 1)
        (pThen2 { events := evs, result := .ok } (opRun i o) (opRun i o))).events = _
      rw [pThen2]
      simp only [opRun]
      rw [ih]
      simp [serialTraceFrom]
    | err =>
      rw [chainExclusiveGo]
      show (chainExclusiveGo rest (i + 1)
        (pThen2 { events := evs, result := .err } (opRun i o) (opRun i o))).events = _
      rw [pThen2]
      simp only [opRun]
      rw [ih]
      simp [serialTraceFrom]

theorem serialTraceFrom_length (k : Nat) :
    ∀ i, (serialTraceFrom i k).length = 2 * k := by
  induction k with
  | zero => intro i; simp [serialTraceFrom]
  | succ k ih =>
    intro i
    simp [serialTraceFrom, ih]
    omega

theorem serialTraceFrom_get (k : Nat) :
    ∀ i m, m < k →
      (serialTraceFrom i k).get? (2 * m) = some (.start (i + m))
      ∧ (serialTraceFrom i k).get? (2 * m + 1) = some (.finish (i + m)) := by
  induction k with
  | zero =>
    intro i m hm
    omega
  | succ k ih =>
    intro i m hm
    cases m with
    | zero => simp [serialTraceFrom]
    | succ m =>
      have h2 : 2 * (m + 1) = 2 * m + 1 + 1 := by omega
      rw [serialTraceFrom, h2]
      simp only [List.get?_cons_succ]
      have := ih (i + 1) m (by omega)
      constructor
      · rw [this.1]
        congr 2
        omega
      · rw [this.2]
        congr 2
        omega

/-- A global event tagged with the session (detect or VI) it belongs to. -/
inductive SessEvent where
  | detect (e : OpEvent)
  | vi (e : OpEvent)
  deriving DecidableEq

/-- The detect-session projection of a global event. -/
def detectPart : SessEvent → Option OpEvent
  | .detect e => some e
  | .vi _ => none

/-- The VI-session projection of a global event. -/
def viPart : SessEvent → Option OpEvent
  | .vi e => some e
  | .detect _ => none

/-- A global order of events is admissible for the two independent session
queues when each session's projection is exactly that session's own chained
trace: the code imposes no constraint between the two sessions beyond the
per-session chains. -/
def Admissible (g : List SessEvent) (dops vops : List Outcome) : Prop :=
  g.filterMap detectPart = (chainExclusive dops).events
  ∧ g.filterMap viPart = (chainExclusive vops).events

theorem filterMap_detectPart_map_vi (l : List OpEvent) :
    (l.map SessEvent.vi).filterMap detectPart = [] := by
  induction l with
  | nil => rfl
  | cons e t ih => simp [detectPart, ih]

theorem filterMap_detectPart_map_detect (l : List OpEvent) :
    (l.map SessEvent.detect).filterMap detectPart = l := by
  induction l with
  | nil => rfl
  | cons e t ih => simp [detectPart, ih]

theorem filterMap_viPart_map_detect (l : List OpEvent) :
    (l.map SessEvent.detect).filterMap viPart = [] := by
  induction l with
  | nil => rfl
  | cons e t ih => simp [viPart, ih]

theorem filterMap_viPart_map_vi (l : List OpEvent) :
    (l.map SessEvent.vi).filterMap viPart = l := by
  induction l with
  | nil => rfl
  | cons e t ih => simp [viPart, ih]

/-- C5: per-session exclusivity.  (i) The trace of a session's queue is the
fully serialized trace of its submissions: every submitted operation starts
and finishes, in submission order — each operation begins only after the
previous one on the same session has finished, whether that one succeeded or
failed, and a failed operation does not prevent the next from running (the
trace does not depend on the outcomes at all).  (ii) The `i`-th operation's
start and finish sit at positions `2i` and `2i+1`.  (iii) In every
admissible global order the two sessions are each serialized, but they are
not serialized against each other: whenever both queues are non-empty there
is an admissible global order in which the first VI operation starts between
the start and the finish of the first detect operation. -/
theorem c5_session_exclusive_chains (ops dops vops : List Outcome) :
    (chainExclusive ops).events = serialTrace ops.length
    ∧ (chainExclusive ops).events.length = 2 * ops.length
    ∧ (∀ i, i < ops.length →
        (chainExclusive ops).events.get? (2 * i) = some (.start i)
        ∧ (chainExclusive ops).events.get? (2 * i + 1) = some (.finish i))
    ∧ (∀ g, Admissible g dops vops →
        g.filterMap detectPart = serialTrace dops.length
        ∧ g.filterMap viPart = serialTrace vops.length)
    ∧ (dops ≠ [] → vops ≠ [] →
        ∃ g, Admissible g dops vops
          ∧ ∃ l2, g = .detect (.start 0)
                :: (l2 ++ .detect (.finish 0)
                  :: ((serialTraceFrom 1 (dops.length - 1)).map SessEvent.detect))
            ∧ .vi (.start 0) ∈ l2) := by
  have hevents : ∀ xs : List Outcome,
      (chainExclusive xs).events = serialTrace xs.length := by
    intro xs
    rw [chainExclusive, chainExclusiveGo_events xs 0 [] .ok, List.nil_append,
      serialTrace]
  refine ⟨hevents ops, ?_, ?_, ?_, ?_⟩
  · rw [hevents ops, serialTrace, serialTraceFrom_length]
  · intro i hi
    rw [hevents ops, serialTrace]
    have := serialTraceFrom_get ops.length 0 i hi
    simpa using this
  · intro g hg
    exact ⟨by rw [← hevents dops]; exact hg.1, by rw [← hevents vops]; exact hg.2⟩
  · intro hd hv
    rcases List.exists_cons_of_ne_nil hd with ⟨d0, drest, hdops⟩
    rcases List.exists_cons_of_ne_nil hv with ⟨v0, vrest, hvops⟩
    refine ⟨.detect (.start 0)
        :: (((serialTrace vops.length).map SessEvent.vi)
          ++ .detect (.finish 0)
            :: ((serialTraceFrom 1 (dops.length - 1)).map SessEvent.detect)),
      ⟨?_, ?_⟩, (serialTrace vops.length).map SessEvent.vi, rfl, ?_⟩
    · rw [hevents dops]
      simp only [List.filterMap_cons, detectPart, List.filterMap_append,
        filterMap_detectPart_map_vi, filterMap_detectPart_map_detect]
      rw [hdops]
      simp only [List.length_cons, serialTrace, serialTraceFrom]
      simp
    · rw [hevents vops]
      simp only [List.filterMap_cons, detectPart, viPart, List.filterMap_append,
        filterMap_viPart_map_vi, filterMap_viPart_map_detect]
      simp
    · rw [hvops]
      simp only [List.length_cons, serialTrace, serialTraceFrom]
      simp

/-! ### The speech queue (`speakQueued` / `speakOnce`, `src/public/app.js`
lines 45–67) -/

/-- One playback of `speakOnce`: the utterance starts and finishes, and the
promise always fulfills — `onend` and `onerror` both call `resolve`, and the
surrounding `try`/`catch` resolves too, so a playback error never rejects
the chain.  `fails` records whether this playback errored; it does not
change the run. -/
def speakOnceRun (i : Nat) (_fails : Bool) : PromiseRun :=
  { events := [.start i, .finish i], result := .ok }

/-- `speakQueued` chains each utterance with
`speechChain = speechChain.then(() => speakOnce(text)).catch(() => {})`. -/
def chainSpeechGo : List Bool → Nat → PromiseRun → PromiseRun
  | [], _, q => q
  | f :: rest, i, q => chainSpeechGo rest (i + 1) (pCatch (pThen1 q (speakOnceRun i f)))

/-- The whole speech queue, starting from `Promise.resolve()`; the `i`-th
enqueued utterance carries its playback-error flag. -/
def chainSpeech (tasks : List Bool) : PromiseRun :=
  chainSpeechGo tasks 0 { events := [], result := .ok }

theorem chainSpeechGo_events (tasks : List Bool) :
    ∀ (i : Nat) (evs : List OpEvent),
      chainSpeechGo tasks i { events := evs, result := .ok }
        = { events := evs ++ serialTraceFrom i tasks.length, result := .ok } := by
  induction tasks with
  | nil =>
    intro i evs
    simp [chainSpeechGo, serialTraceFrom]
  | cons f rest ih =>
    intro i evs
    rw [chainSpeechGo]
    show chainSpeechGo rest (i + 1)
      (pCatch (pThen1 { events := evs, result := .ok } (speakOnceRun i f))) = _
    rw [pThen1]
    simp only [speakOnceRun]
    rw [pCatch]
    rw [ih]
    simp [serialTraceFrom]

/-- C6: speech tasks begin playback in exactly their enqueue order and no
two utterances overlap: the queue's trace is the fully serialized trace
`start 0, finish 0, start 1, …`, with the `i`-th utterance's start and
finish at positions `2i` and `2i+1`, each start strictly after every earlier
finish; and the trace is the same whatever the playback-error flags are, so
an error in one enqueued utterance never prevents a later one from being
spoken, and the chain always ends fulfilled. -/
theorem c6_speech_queue_serialized (tasks : List Bool) :
    (chainSpeech tasks).events = serialTrace tasks.length
    ∧ (chainSpeech tasks).result = .ok
    ∧ (chainSpeech tasks).events.length = 2 * tasks.length
    ∧ (∀ i, i < tasks.length →
        (chainSpeech tasks).events.get? (2 * i) = some (.start i)
        ∧ (chainSpeech tasks).events.get? (2 * i + 1) = some (.finish i))
    ∧ (∀ flips : List Bool, flips.length = tasks.length →
        chainSpeech flips = chainSpeech tasks) := by
  have hrun : ∀ xs : List Bool,
      chainSpeech xs = { events := serialTrace xs.length, result := .ok } := by
    intro xs
    rw [chainSpeech, chainSpeechGo_events xs 0 [], List.nil_append, serialTrace]
  refine ⟨by rw [hrun], by rw [hrun], ?_, ?_, ?_⟩
  · rw [hrun]
    simp [serialTrace, serialTraceFrom_length]
  · intro i hi
    rw [hrun]
    have := serialTraceFrom_get tasks.length 0 i hi
    simpa [serialTrace] using this
  · intro flips hlen
    rw [hrun, hrun, hlen]

/-! ### Gesture dispatcher (`src/public/app.js` lines 20–31, 69–80, 378–443)

Browser events (`pointerdown`, `pointerup`, `click`, `dblclick`) arrive with
millisecond timestamps; the browser itself synthesizes `click` after a
release and `dblclick` after a second click.  `setTimeout` deadlines fire
once the clock passes them: advancing the clock to an event's time first
fires every armed deadline that is `≤` that time, earliest deadline first
(neither callback arms a new timer). -/

/-- The user-observable actions the handlers can start. -/
inductive GAction where
  | introSpeech
  | detailedVI
  | singleDetect
  | autoReminder
  | toggleAuto
  deriving DecidableEq

/-- The dispatcher state: the two timer deadlines, the long-press-consumed
flag, the one-time-introduction flags, the auto-repeat flag, and the log of
actions started so far. -/
structure GState where
  lpDeadline : Option Nat
  lpTriggered : Bool
  clickDeadline : Option Nat
  introSpoken : Bool
  introJustPlayed : Bool
  autoOn : Bool
  actions : List GAction
  deriving DecidableEq

/-- The long-press timer fires: mark the long press consumed and start
`doDetailedVI()`. -/
def fireLP (s : GState) : GState :=
  { s with
    lpDeadline := none
    lpTriggered := true
    actions := s.actions ++ [.detailedVI] }

/-- The pending-tap timer fires: `clickTimer = null`, then either
`doDetect({auto: false})` or the auto-mode spoken reminder. -/
def fireClick (s : GState) : GState :=
  { s with
    clickDeadline := none
    actions := s.actions ++ [if s.autoOn then .autoReminder else .singleDetect] }

/-- Advance the clock to time `t`: fire the due deadlines (`≤ t`), earliest
first.  At most two timers exist and firing arms nothing new. -/
def advanceTo (s : GState) (t : Nat) : GState :=
  match s.lpDeadline, s.clickDeadline with
  | some dl, some dc =>
    if dl ≤ t then
      if dc ≤ t then
        if dl ≤ dc then fireClick (fireLP s) else fireLP (fireClick s)
      else fireLP s
    else if dc ≤ t then fireClick s else s
  | some dl, none => if dl ≤ t then fireLP s else s
  | none, some dc => if dc ≤ t then fireClick s else s
  | none, none => s

/-- `pointerdown`: speak the one-time introduction on the first gesture,
then `startLongPress()` — clear any pending long-press timer, reset
`longPressTriggered`, arm the 650 ms deadline. -/
def onPointerDown (s : GState) (t : Nat) : GState :=
  let s1 :=
    if s.introSpoken then s
    else
      { s with
        introSpoken := true
        introJustPlayed := true
        actions := s.actions ++ [.introSpeech] }
  { s1 with
    lpDeadline := some (t + 650)
    lpTriggered := false }

/-- `pointerup` / `pointercancel` / `pointerleave`: `cancelLongPress()`. -/
def onPointerUp (s : GState) : GState :=
  { s with lpDeadline := none }

/-- `click`: a click after a fired long press is consumed; the click right
after the introduction is consumed; otherwise (re)arm the 260 ms pending-tap
window. -/
def onClick (s : GState) (t : Nat) : GState :=
  if s.lpTriggered then { s with lpTriggered := false }
  else if s.introJustPlayed then { s with introJustPlayed := false }
  else { s with clickDeadline := some (t + 260) }

/-- `dblclick`: ignored before the introduction has been spoken; otherwise
cancel the pending single tap and `toggleAutoRepeat()`. -/
def onDblClick (s : GState) : GState :=
  if s.introSpoken then
    { s with
      clickDeadline := none
      autoOn := !s.autoOn
      actions := s.actions ++ [.toggleAuto] }
  else s

/-- A timestamped input event of the capture control. -/
inductive GEvent where
  | pdown (t : Nat)
  | pup (t : Nat)
  | click (t : Nat)
  | dblclick (t : Nat)
  deriving DecidableEq

/-- Process one event: catch the clock up to the event's time, then run the
handler. -/
def gstep (s : GState) : GEvent → GState
  | .pdown t => onPointerDown (advanceTo s t) t
  | .pup t => onPointerUp (advanceTo s t)
  | .click t => onClick (advanceTo s t) t
  | .dblclick t => onDblClick (advanceTo s t)

/-- Run an event sequence and then let the clock run to `endTime` (firing
whatever deadlines are still pending and due). -/
def grun (s : GState) (evs : List GEvent) (endTime : Nat) : GState :=
  advanceTo (evs.foldl gstep s) endTime

/-- The dispatcher state at page load. -/
def gInit : GState :=
  { lpDeadline := none, lpTriggered := false, clickDeadline := none,
    introSpoken := false, introJustPlayed := false, autoOn := false,
    actions := [] }

/-- The dispatcher state once the one-time introduction has been spoken and
its suppressed first tap has passed, with auto-repeat in a given state. -/
def gReady (autoOn : Bool) : GState :=
  { lpDeadline := none, lpTriggered := false, clickDeadline := none,
    introSpoken := true, introJustPlayed := false, autoOn := autoOn,
    actions := [] }

/-- C9 (amended: after the one-time introduction; the very first tap only
plays the introduction, and double-tap is honored only once the introduction
has been spoken — the long-press behavior needs no such proviso): a press
held at least 650 ms before release fires the detailed-analysis action and
the subsequent click is suppressed (no tap action fires, even from the
page-load state); two clicks within the 260 ms window followed by the
browser's `dblclick` fire the double-tap toggle and suppress the single-tap
action; and a single click followed by at least 260 ms of silence fires the
single-tap action — capture-and-detect when auto-repeat is off, the spoken
reminder when it is on. -/
theorem c9_gesture_dispatcher
    (t0 t1 t2 a0 a1 a2 b0 b1 b2 endT : Nat) (auto : Bool) :
    (t0 + 650 ≤ t1 → t1 ≤ t2 → t2 ≤ endT →
      (grun (gReady auto) [.pdown t0, .pup t1, .click t2] endT).actions
        = [.detailedVI]
      ∧ (grun gInit [.pdown t0, .pup t1, .click t2] endT).actions
        = [.introSpeech, .detailedVI])
    ∧ (a0 ≤ a1 → a1 < a0 + 650 → a1 ≤ a2 → a2 ≤ b0 → b0 ≤ b1 → b1 < b0 + 650 →
        b1 ≤ b2 → b2 < a2 + 260 →
      (grun (gReady auto)
          [.pdown a0, .pup a1, .click a2, .pdown b0, .pup b1, .click b2,
            .dblclick b2] endT).actions
        = [.toggleAuto])
    ∧ (t1 < t0 + 650 → t1 ≤ t2 → t2 + 260 ≤ endT →
      (grun (gReady false) [.pdown t0, .pup t1, .click t2] endT).actions
        = [.singleDetect]
      ∧ (grun (gReady true) [.pdown t0, .pup t1, .click t2] endT).actions
        = [.autoReminder]) := by
  refine ⟨?_, ?_, ?_⟩
  · intro h1 h2 h3
    constructor
    · simp [grun, gstep, gReady, onPointerDown, advanceTo, onPointerUp, fireLP,
        onClick, h1, Nat.le_trans h1 h2, Nat.le_trans (Nat.le_trans h1 h2) h3]
    · simp [grun, gstep, gInit, onPointerDown, advanceTo, onPointerUp, fireLP,
        onClick, h1, Nat.le_trans h1 h2, Nat.le_trans (Nat.le_trans h1 h2) h3]
  · intro h1 h2 h3 h4 h5 h6 h7 h8
    have hn1 : ¬ a0 + 650 ≤ a1 := by omega
    have hn2 : ¬ a2 + 260 ≤ b0 := by omega
    have hn3 : ¬ b0 + 650 ≤ b1 := by omega
    have hn4 : ¬ a2 + 260 ≤ b1 := by omega
    have hn5 : ¬ a2 + 260 ≤ b2 := by omega
    have hn6 : ¬ b2 + 260 ≤ b2 := by omega
    simp [grun, gstep, gReady, onPointerDown, advanceTo, onPointerUp, fireLP,
      fireClick, onClick, onDblClick, hn1, hn2, hn3, hn4, hn5, hn6]
  · intro h1 h2 h3
    have hn1 : ¬ t0 + 650 ≤ t1 := by omega
    constructor
    · simp [grun, gstep, gReady, onPointerDown, advanceTo, onPointerUp, fireLP,
        fireClick, onClick, hn1, h3]
    · simp [grun, gstep, gReady, onPointerDown, advanceTo, onPointerUp, fireLP,
        fireClick, onClick, hn1, h3]

/-- C9 counterexample to the claim as frozen: from the page-load state, a
single click followed by silence does not fire the single-tap action — the
first gesture only speaks the one-time introduction and the tap is
consumed. -/
theorem c9_first_tap_plays_intro_only :
    (grun gInit [.pdown 0, .pup 10, .click 20] 1000).actions = [.introSpeech]
    ∧ GAction.singleDetect ∉ (grun gInit [.pdown 0, .pup 10, .click 20] 1000).actions
    ∧ GAction.detailedVI ∉ (grun gInit [.pdown 0, .pup 10, .click 20] 1000).actions := by
  refine ⟨by decide, by decide, by decide⟩

/-! ### The shared `busy` guard of `doDetect` and `doDetailedVI`
(`src/public/app.js` lines 254–256, 303–305, 308–310, 334–336)

Both client actions open with `if (busy) return; busy = true;` against the
same module-level `busy` variable and reset it in `finally`.  An in-flight
action is a sequence of micro-steps (capture, request, announce, release);
handler invocations may arrive between micro-steps (at `await` points). -/

/-- Which of the two capture-and-inference actions. -/
inductive ActKind where
  | detect
  | detailed
  deriving DecidableEq

/-- Events of the busy-guard machine. -/
inductive BusyEv where
  | invoked (k : ActKind)
  | dropped (k : ActKind)
  | started (k : ActKind)
  | captured (k : ActKind)
  | requested (k : ActKind)
  | announced (k : ActKind)
  | finished (k : ActKind)
  deriving DecidableEq

/-- The micro-steps an action performs once it passes the guard: capture the
frame, send the request, announce the result, and release the guard in
`finally`. -/
def microSteps (k : ActKind) : List BusyEv :=
  [.captured k, .requested k, .announced k, .finished k]

/-- The client state: the shared `busy` flag, the remaining micro-steps of
the in-flight action, and the event log. -/
structure BusyState where
  busy : Bool
  pending : List BusyEv
  log : List BusyEv

/-- A command: a handler invocation of either action, or one micro-step of
progress of the in-flight action. -/
inductive BusyCmd where
  | invoke (k : ActKind)
  | tick

/-- One step: an invocation is dropped at the guard when `busy` is set
(immediately, with no capture, request or announcement), and otherwise sets
`busy` and schedules the action's micro-steps; a tick performs the next
micro-step, clearing `busy` when the last one (the `finally`) runs. -/
def bstep (s : BusyState) : BusyCmd → BusyState
  | .invoke k =>
    if s.busy then { s with log := s.log ++ [.invoked k, .dropped k] }
    else
      { busy := true
        pending := microSteps k
        log := s.log ++ [.invoked k, .started k] }
  | .tick =>
    match s.pending with
    | [] => s
    | e :: rest =>
      { busy := !(rest == [])
        pending := rest
        log := s.log ++ [e] }

/-- Run from the page-load state (`busy = false`). -/
def brun (cmds : List BusyCmd) : BusyState :=
  cmds.foldl bstep { busy := false, pending := [], log := [] }

def isStartEv : BusyEv → Bool
  | .started _ => true
  | _ => false

def isFinishEv : BusyEv → Bool
  | .finished _ => true
  | _ => false

/-- Work observable to the outside: capturing, requesting, announcing. -/
def isWorkEv : BusyEv → Bool
  | .captured _ => true
  | .requested _ => true
  | .announced _ => true
  | _ => false

/-- The machine invariant: `busy` is set exactly while micro-steps remain;
the remaining steps are a suffix of one action's script; and the number of
actions started exceeds the number finished by exactly the in-flight one. -/
def BusyInv (s : BusyState) : Prop :=
  (s.busy = true ↔ s.pending ≠ [])
  ∧ (s.pending = [] ∨ ∃ k, s.pending <:+ microSteps k)
  ∧ (s.log.filter isStartEv).length
      = (s.log.filter isFinishEv).length + (if s.busy then 1 else 0)

theorem suffix_microSteps (k : ActKind) (l : List BusyEv)
    (h : l <:+ microSteps k) :
    l = [] ∨ l = [.finished k] ∨ l = [.announced k, .finished k]
    ∨ l = [.requested k, .announced k, .finished k] ∨ l = microSteps k := by
  rcases h with ⟨pre, hpre⟩
  have hlen : pre.length + l.length = 4 := by
    have := congrArg List.length hpre
    simpa [microSteps] using this
  have hl : l.length ≤ 4 := by omega
  interval_cases h2 : l.length
  · left
    exact List.eq_nil_of_length_eq_zero h2
  · right; left
    rcases l with _ | ⟨a, _ | ⟨b, l2⟩⟩ <;> simp_all [microSteps]
    rcases pre with _ | ⟨p1, _ | ⟨p2, _ | ⟨p3, _ | ⟨p4, prest⟩⟩⟩⟩ <;>
      simp_all [microSteps]
  · right; right; left
    rcases l with _ | ⟨a, _ | ⟨b, _ | ⟨c, l3⟩⟩⟩ <;> simp_all [microSteps]
    rcases pre with _ | ⟨p1, _ | ⟨p2, _ | ⟨p3, prest⟩⟩⟩ <;> simp_all [microSteps]
  · right; right; right; left
    rcases l with _ | ⟨a, _ | ⟨b, _ | ⟨c, _ | ⟨d, l4⟩⟩⟩⟩ <;> simp_all [microSteps]
    rcases pre with _ | ⟨p1, _ | ⟨p2, prest⟩⟩ <;> simp_all [microSteps]
  · right; right; right; right
    have hp : pre.length = 0 := by omega
    have : pre = [] := List.eq_nil_of_length_eq_zero hp
    subst this
    simpa using hpre

theorem busyInv_init : BusyInv { busy := false, pending := [], log := [] } := by
  refine ⟨by simp, Or.inl rfl, by simp⟩

theorem busyInv_step (s : BusyState) (c : BusyCmd) (h : BusyInv s) :
    BusyInv (bstep s c) := by
  rcases h with ⟨hbusy, hsuf, hcount⟩
  cases c with
  | invoke k =>
    by_cases hb : s.busy
    · simp only [bstep, if_pos hb]
      refine ⟨by simpa using hbusy, hsuf, ?_⟩
      simp [List.filter_append, isStartEv, isFinishEv, hcount]
    · simp only [bstep, if_neg hb]
      refine ⟨by simp [microSteps], Or.inr ⟨k, List.suffix_refl _⟩, ?_⟩
      have hb2 : s.busy = false := by
        cases hvb : s.busy
        · rfl
        · exact absurd hvb hb
      simp [List.filter_append, isStartEv, isFinishEv, hcount, hb2]
  | tick =>
    cases hp : s.pending with
    | nil =>
      simpa [bstep, hp] using ⟨hbusy, hsuf, hcount⟩
    | cons e rest =>
      have hb : s.busy = true := hbusy.mpr (by simp [hp])
      rcases hsuf with hnil | ⟨k, hsufk⟩
      · rw [hp] at hnil
        cases hnil
      · rw [hp] at hsufk
        rcases suffix_microSteps k (e :: rest) hsufk with
          hcase | hcase | hcase | hcase | hcase
        · cases hcase
        · rcases List.cons_eq_cons.mp hcase with ⟨he, hrest⟩
          subst he
          subst hrest
          refine ⟨by simp [bstep, hp], Or.inl (by simp [bstep, hp]), ?_⟩
          simp only [bstep, hp]
          simp [List.filter_append, isStartEv, isFinishEv, hcount, hb]
        · rcases List.cons_eq_cons.mp hcase with ⟨he, hrest⟩
          subst he
          subst hrest
          refine ⟨by simp [bstep, hp], ?_, ?_⟩
          · refine Or.inr ⟨k, ?_⟩
            simp only [bstep, hp]
            exact ⟨[.captured k, .requested k, .announced k], by simp [microSteps]⟩
          · simp only [bstep, hp]
            simp [List.filter_append, isStartEv, isFinishEv, hcount, hb]
        · rcases List.cons_eq_cons.mp hcase with ⟨he, hrest⟩
          subst he
          subst hrest
          refine ⟨by simp [bstep, hp], ?_, ?_⟩
          · refine Or.inr ⟨k, ?_⟩
            simp only [bstep, hp]
            exact ⟨[.captured k, .requested k], by simp [microSteps]⟩
          · simp only [bstep, hp]
            simp [List.filter_append, isStartEv, isFinishEv, hcount, hb]
        · rw [microSteps] at hcase
          rcases List.cons_eq_cons.mp hcase with ⟨he, hrest⟩
          subst he
          subst hrest
          refine ⟨by simp [bstep, hp], ?_, ?_⟩
          · refine Or.inr ⟨k, ?_⟩
            simp only [bstep, hp]
            exact ⟨[.captured k], by simp [microSteps]⟩
          · simp only [bstep, hp]
            simp [List.filter_append, isStartEv, isFinishEv, hcount, hb]

theorem busyInv_run (cmds : List BusyCmd) : BusyInv (brun cmds) := by
  rw [brun]
  generalize hstart : ({ busy := false, pending := [], log := [] } : BusyState) = s0
  have h0 : BusyInv s0 := by
    rw [← hstart]
    exact busyInv_init
  clear hstart
  induction cmds generalizing s0 with
  | nil => simpa using h0
  | cons c rest ih =>
    simp only [List.foldl_cons]
    exact ih (bstep s0 c) (busyInv_step s0 c h0)

/-- C10: `doDetect` and `doDetailedVI` consult one shared `busy` flag.  In
every reachable state, the number of started actions (of both kinds,
counted together) exceeds the number of finished ones by exactly the
in-flight action — so at most one capture-and-inference action of either
kind is ever in flight; `busy` is set exactly while one is; an invocation
of either action while `busy` is set appends only its invoked/dropped
events — it changes nothing else and performs no capture, request or
announcement — so a long-press detailed request arriving during an
outstanding detect cycle is silently dropped, and vice versa; and an
invocation while idle starts the action. -/
theorem c10_shared_busy_guard (cmds : List BusyCmd) (k : ActKind) :
    ((brun cmds).log.filter isStartEv).length
      = ((brun cmds).log.filter isFinishEv).length
        + (if (brun cmds).busy then 1 else 0)
    ∧ ((brun cmds).busy = true ↔ (brun cmds).pending ≠ [])
    ∧ ((brun cmds).busy = true →
        bstep (brun cmds) (.invoke k)
          = { brun cmds with
              log := (brun cmds).log ++ [.invoked k, .dropped k] })
    ∧ ((brun cmds).busy = true →
        (bstep (brun cmds) (.invoke k)).log.filter isWorkEv
            = (brun cmds).log.filter isWorkEv
        ∧ (bstep (brun cmds) (.invoke k)).busy = (brun cmds).busy
        ∧ (bstep (brun cmds) (.invoke k)).pending = (brun cmds).pending)
    ∧ ((brun cmds).busy = false →
        bstep (brun cmds) (.invoke k)
          = { busy := true, pending := microSteps k,
              log := (brun cmds).log ++ [.invoked k, .started k] }) := by
  rcases busyInv_run cmds with ⟨hbusy, -, hcount⟩
  refine ⟨hcount, hbusy, ?_, ?_, ?_⟩
  · intro hb
    simp [bstep, hb]
  · intro hb
    refine ⟨?_, ?_, ?_⟩ <;>
      simp [bstep, hb, List.filter_append, isWorkEv]
  · intro hb
    simp [bstep, hb]
